import Mathlib

/-!
# Verification of the WereSync partition-table engine

A shallow embedding of the core algorithms of `src/weresync/daemon/device.py`
(partition-table resizing, validity checking, mount scoping, UUID-map caching)
together with theorems settling the specification claims about them.

All sizes are in 512-byte sectors, as in the source.  Python's
`math.floor(x / a)` and `math.ceil(x / a)` on integer inputs are modelled by
exact floor division on `Int` (`Int.fdiv`); Python integers are unbounded, so
`Int`/`Nat` model them exactly.
-/

namespace WereSync

/-! ## GPT resize engine (`DeviceCopier._transfer_gpt`, device.py lines 887-948)

The source iterates over the source partitions in reverse on-disk order,
computing for each a planned size (`part_size`) and accumulating `sgdisk`
arguments.  External queries (`get_partition_size`, `get_partition_used`,
`get_partition_code`) are modelled as fields of `SrcPart`; a `used` value of
`none` models `get_partition_used` raising a `DeviceError`. -/

/-- A source partition as observed by the engine: partition number, size in
sectors (`get_partition_size`), used sectors (`get_partition_used`; `none` if
the query raised a `DeviceError`), and its type code (`get_partition_code`). -/
structure SrcPart where
  num : Nat
  size : Nat
  used : Option Nat
  code : String
deriving Repr, DecidableEq

/-- One planned partition of the GPT resize plan: the partition number, the
numeric size computed by the shrink arithmetic (the Python `part_size`
variable) and whether the partition is emitted as unbounded
(`sgdisk -n n:0:0`, "rest of disk") instead of with its numeric size. -/
structure PlanEntry where
  num : Nat
  computedSize : Int
  unbounded : Bool
  code : String
deriving Repr, DecidableEq

/-- `int(a * math.floor(x / a))`: round `x` down to a multiple of `a`. -/
def floorAlign (a : Nat) (x : Int) : Int := (a : Int) * (x.fdiv (a : Int))

/-- `int(a * math.ceil(x / a))`: round `x` up to a multiple of `a`. -/
def ceilAlign (a : Nat) (x : Int) : Int := (a : Int) * (-((-x).fdiv (a : Int)))

/-- The body of the `for i in reversed(partitions)` loop in `_transfer_gpt`
(device.py lines 907-931): given one partition and the current `difference`,
produce the computed `part_size` and the updated `difference`. -/
def gptStepSize (alignment : Nat) (p : SrcPart) (diff : Int) : Int × Int :=
  -- part_used = get_partition_used(i), or drive_size on DeviceError
  let part_used : Int := match p.used with | some u => (u : Int) | none => (p.size : Int)
  -- space = int(part_alignment * math.floor((drive_size - part_used) / part_alignment))
  let space := floorAlign alignment ((p.size : Int) - part_used)
  if 0 < space ∧ 0 < diff then
    if diff < space then
      -- part_size = int(part_alignment * math.ceil((drive_size - difference) / part_alignment));
      -- difference = 0
      (ceilAlign alignment ((p.size : Int) - diff), 0)
    else
      -- part_size = int(part_alignment * math.ceil(part_used / part_alignment));
      -- difference -= space
      (ceilAlign alignment part_used, diff - space)
  else
    -- part_size = int(part_alignment * math.ceil(drive_size / part_alignment));
    -- difference += part_size - drive_size
    let ps := ceilAlign alignment (p.size : Int)
    (ps, diff + (ps - (p.size : Int)))

/-- The reversed-order loop of `_transfer_gpt`.  `l` is `reversed(partitions)`,
`lastNum` is `partitions[-1]`.  Each iteration prepends its `-n` argument to
`add_args`, so the produced plan list is in on-disk order.  Returns the final
`difference` and the plan. -/
def gptLoop (alignment : Nat) (lastNum : Nat) : List SrcPart → Int → Int × List PlanEntry
  | [], diff => (diff, [])
  | p :: rest, diff =>
    let sd := gptStepSize alignment p diff
    -- `if (i != partitions[-1])` : bounded spec "i:0:+size"; else unbounded "i:0:0"
    let entry : PlanEntry :=
      if p.num ≠ lastNum then ⟨p.num, sd.1, false, p.code⟩ else ⟨p.num, sd.1, true, p.code⟩
    let r := gptLoop alignment lastNum rest sd.2
    (r.1, r.2 ++ [entry])

/-- `DeviceCopier._transfer_gpt`, planning phase (device.py lines 896-947):
`difference` is first reduced by `source.get_empty_space() - 34`, then the
partitions are processed in reverse on-disk order. -/
def transferGpt (parts : List SrcPart) (emptySpace : Nat) (alignment : Nat)
    (difference : Int) : Int × List PlanEntry :=
  let lastNum := ((parts.getLast?).map SrcPart.num).getD 0
  gptLoop alignment lastNum parts.reverse (difference - ((emptySpace : Int) - 34))

/-- The `sgdisk -n` argument emitted for a plan entry:
`"{0}:0:+{1}".format(i, part_size)` for bounded entries,
`"{0}:0:0".format(i)` for the unbounded last partition. -/
def PlanEntry.render (e : PlanEntry) : String :=
  if e.unbounded then toString e.num ++ ":0:0"
  else toString e.num ++ ":0:+" ++ toString e.computedSize

/-! ### Rounding lemmas -/

theorem floorAlign_le {a : Nat} (ha : 0 < a) (x : Int) : floorAlign a x ≤ x := by
  have h := Int.fdiv_add_fmod x (a : Int)
  have hm : 0 ≤ x.fmod (a : Int) := Int.fmod_nonneg' x (by exact_mod_cast ha)
  unfold floorAlign
  omega

theorem ceilAlign_eq_neg_floorAlign (a : Nat) (x : Int) :
    ceilAlign a x = -(floorAlign a (-x)) := by
  unfold ceilAlign floorAlign
  ring

theorem le_ceilAlign {a : Nat} (ha : 0 < a) (x : Int) : x ≤ ceilAlign a x := by
  have h := floorAlign_le ha (-x)
  rw [ceilAlign_eq_neg_floorAlign]
  omega

theorem dvd_floorAlign (a : Nat) (x : Int) : (a : Int) ∣ floorAlign a x :=
  Dvd.intro _ rfl

theorem dvd_ceilAlign (a : Nat) (x : Int) : (a : Int) ∣ ceilAlign a x :=
  Dvd.intro _ rfl

/-- The computed `part_size` is always one of the three `ceilAlign` forms,
hence always a multiple of the alignment. -/
theorem dvd_gptStepSize (alignment : Nat) (p : SrcPart) (diff : Int) :
    (alignment : Int) ∣ (gptStepSize alignment p diff).1 := by
  rcases hu : p.used with _ | u <;>
    simp only [gptStepSize, hu] <;>
    split <;>
    first
      | (split <;> exact dvd_ceilAlign _ _)
      | exact dvd_ceilAlign _ _

/-- In every branch the computed size is at least the partition's used
sectors (treating an undeterminable usage as the full size), provided the
used figure does not exceed the partition size. -/
theorem gptStepSize_ge_used {alignment : Nat} (ha : 0 < alignment) (p : SrcPart) (diff : Int) :
    (∀ u, p.used = some u → u ≤ p.size → (u : Int) ≤ (gptStepSize alignment p diff).1) ∧
    (p.used = none → (p.size : Int) ≤ (gptStepSize alignment p diff).1) := by
  constructor
  · intro u hu hle
    unfold gptStepSize
    rw [hu]
    simp only
    split
    · rename_i hcond
      split
      · rename_i hlt
        -- space ≤ size - used and diff < space, so used < size - diff ≤ ceil
        have hsp : floorAlign alignment ((p.size : Int) - (u : Int)) ≤ (p.size : Int) - (u : Int) :=
          floorAlign_le ha _
        have hceil := le_ceilAlign ha ((p.size : Int) - diff)
        omega
      · exact le_ceilAlign ha _
    · have hceil := le_ceilAlign ha (p.size : Int)
      exact_mod_cast le_trans (by exact_mod_cast hle) hceil
  · intro hu
    unfold gptStepSize
    rw [hu]
    simp only
    -- part_used = drive_size, so space = floorAlign 0 = 0 and the else branch runs
    have hz : floorAlign alignment ((p.size : Int) - (p.size : Int)) = 0 := by
      unfold floorAlign
      simp
    split
    · rename_i hcond
      omega
    · exact le_ceilAlign ha _

/-! ### Structure of the produced plan -/

theorem gptLoop_map_num (alignment lastNum : Nat) :
    ∀ (l : List SrcPart) (d : Int),
      (gptLoop alignment lastNum l d).2.map PlanEntry.num = (l.map SrcPart.num).reverse := by
  intro l
  induction l with
  | nil => intro d; rfl
  | cons p rest ih =>
    intro d
    simp only [gptLoop, List.map_append, ih, List.map_cons, List.reverse_cons]
    split <;> rfl

theorem gptLoop_map_unbounded (alignment lastNum : Nat) :
    ∀ (l : List SrcPart) (d : Int),
      (gptLoop alignment lastNum l d).2.map PlanEntry.unbounded
        = (l.map (fun p => decide (p.num = lastNum))).reverse := by
  intro l
  induction l with
  | nil => intro d; rfl
  | cons p rest ih =>
    intro d
    simp only [gptLoop, List.map_append, ih, List.map_cons, List.reverse_cons]
    by_cases h : p.num = lastNum
    · simp [h]
    · simp [h]

theorem gptLoop_mem (alignment lastNum : Nat) :
    ∀ (l : List SrcPart) (d : Int) (e : PlanEntry), e ∈ (gptLoop alignment lastNum l d).2 →
      ∃ p ∈ l, ∃ d' : Int, e.num = p.num ∧ e.code = p.code ∧
        e.computedSize = (gptStepSize alignment p d').1 := by
  intro l
  induction l with
  | nil => intro d e he; simp [gptLoop] at he
  | cons p rest ih =>
    intro d e he
    simp only [gptLoop, List.mem_append, List.mem_singleton] at he
    rcases he with he | he
    · obtain ⟨q, hq, d', h1, h2, h3⟩ := ih _ e he
      exact ⟨q, List.mem_cons_of_mem _ hq, d', h1, h2, h3⟩
    · refine ⟨p, List.mem_cons_self _ _, d, ?_⟩
      subst he
      split <;> exact ⟨rfl, rfl, rfl⟩

/-! ### Claim theorems for the GPT engine -/

/-- C1: in every GPT resize plan, every partition whose usage is determinable
gets a computed size of at least its used sectors, and a partition whose usage
query raised a device error is treated as fully used and is not shrunk: its
computed size is at least its (aligned) original size. -/
theorem gpt_plan_ge_used
    (parts : List SrcPart) (emptySpace alignment : Nat) (difference : Int)
    (ha : 0 < alignment)
    (hu : ∀ p ∈ parts, ∀ u, p.used = some u → u ≤ p.size) :
    ∀ e ∈ (transferGpt parts emptySpace alignment difference).2,
      ∃ p ∈ parts,
        e.num = p.num ∧
        (∀ u, p.used = some u → (u : Int) ≤ e.computedSize) ∧
        (p.used = none → (p.size : Int) ≤ e.computedSize) := by
  intro e he
  obtain ⟨p, hp, d', h1, _, h3⟩ := gptLoop_mem _ _ _ _ e he
  rw [List.mem_reverse] at hp
  refine ⟨p, hp, h1, ?_, ?_⟩
  · intro u huu
    rw [h3]
    exact (gptStepSize_ge_used ha p d').1 u huu (hu p hp u huu)
  · intro hun
    rw [h3]
    exact (gptStepSize_ge_used ha p d').2 hun

/-- Witness for C1 at a concrete two-partition layout. -/
theorem gpt_plan_ge_used_witness :
    (0 < 8 ∧ ∀ p ∈ [SrcPart.mk 1 100 (some 40) "8300", SrcPart.mk 2 50 none "8200"],
        ∀ u, p.used = some u → u ≤ p.size) ∧
    (∀ e ∈ (transferGpt [SrcPart.mk 1 100 (some 40) "8300", SrcPart.mk 2 50 none "8200"]
              100 8 30).2,
       ∃ p ∈ [SrcPart.mk 1 100 (some 40) "8300", SrcPart.mk 2 50 none "8200"],
         e.num = p.num ∧
         (∀ u, p.used = some u → (u : Int) ≤ e.computedSize) ∧
         (p.used = none → (p.size : Int) ≤ e.computedSize)) :=
  ⟨⟨by decide, by decide⟩,
   gpt_plan_ge_used _ 100 8 30 (by decide) (by decide)⟩

/-- C2: in the plan of a GPT resize, the partition that is last in on-disk
order, and only it, is given an unbounded size specification (`"n:0:0"`,
rest of disk), regardless of the numeric size the shrink arithmetic computed
for it; all other partitions are emitted with their computed size
(`"n:0:+size"`). -/
theorem gpt_last_partition_unbounded
    (parts : List SrcPart) (emptySpace alignment : Nat) (difference : Int)
    (hne : parts ≠ [])
    (hnd : (parts.map SrcPart.num).Nodup) :
    (transferGpt parts emptySpace alignment difference).2.map PlanEntry.num
        = parts.map SrcPart.num ∧
    ∀ (i : Nat) (hi : i < (transferGpt parts emptySpace alignment difference).2.length),
      (((transferGpt parts emptySpace alignment difference).2.get ⟨i, hi⟩).unbounded
          = decide (i = parts.length - 1)) ∧
      ((transferGpt parts emptySpace alignment difference).2.get ⟨i, hi⟩).render
        = (if i = parts.length - 1
           then toString (((transferGpt parts emptySpace alignment difference).2.get
                  ⟨i, hi⟩).num) ++ ":0:0"
           else toString (((transferGpt parts emptySpace alignment difference).2.get
                  ⟨i, hi⟩).num) ++ ":0:+"
                ++ toString (((transferGpt parts emptySpace alignment difference).2.get
                  ⟨i, hi⟩).computedSize)) := by
  have hnum : (transferGpt parts emptySpace alignment difference).2.map PlanEntry.num
      = parts.map SrcPart.num := by
    unfold transferGpt
    rw [gptLoop_map_num, List.map_reverse, List.reverse_reverse]
  refine ⟨hnum, ?_⟩
  have hlast : ((parts.getLast?).map SrcPart.num).getD 0 = (parts.getLast hne).num := by
    rw [List.getLast?_eq_getLast _ hne]
    rfl
  have hub : (transferGpt parts emptySpace alignment difference).2.map PlanEntry.unbounded
      = parts.map (fun p => decide (p.num = (parts.getLast hne).num)) := by
    unfold transferGpt
    rw [gptLoop_map_unbounded, List.map_reverse, List.reverse_reverse, hlast]
  intro i hi
  have hiP : i < parts.length := by
    have := congrArg List.length hnum
    simp only [List.length_map] at this
    omega
  have hne' : 0 < parts.length := List.length_pos.mpr hne
  have hGetU : ((transferGpt parts emptySpace alignment difference).2.get ⟨i, hi⟩).unbounded
      = decide (parts[i].num = (parts.getLast hne).num) := by
    have h1 : ((transferGpt parts emptySpace alignment difference).2.map
        PlanEntry.unbounded).getD i false
        = ((transferGpt parts emptySpace alignment difference).2.get ⟨i, hi⟩).unbounded := by
      rw [List.getD_eq_getElem _ _ (by simpa using hi)]
      simp
    rw [← h1, hub, List.getD_eq_getElem _ _ (by simpa using hiP)]
    simp
  -- with distinct partition numbers, the number equals the last number iff the
  -- index is the last index
  have hbi : i < (parts.map SrcPart.num).length := by simpa using hiP
  have hbl : parts.length - 1 < (parts.map SrcPart.num).length := by
    simp only [List.length_map]
    omega
  have hIff : (parts[i].num = (parts.getLast hne).num) ↔ i = parts.length - 1 := by
    rw [List.getLast_eq_getElem]
    constructor
    · intro h
      have hmi : (parts.map SrcPart.num).get ⟨i, hbi⟩
          = (parts.map SrcPart.num).get ⟨parts.length - 1, hbl⟩ := by
        simp only [List.get_eq_getElem, List.getElem_map]
        exact h
      have h2 := (List.Nodup.get_inj_iff hnd).mp hmi
      simpa using congrArg Fin.val h2
    · intro h
      subst h
      rfl
  have hU : ((transferGpt parts emptySpace alignment difference).2.get ⟨i, hi⟩).unbounded
      = decide (i = parts.length - 1) := by
    rw [hGetU]
    simp only [decide_eq_decide]
    exact hIff
  refine ⟨hU, ?_⟩
  unfold PlanEntry.render
  rw [hU]
  by_cases h : i = parts.length - 1 <;> simp [h]

/-- Witness for C2 at a concrete three-partition layout. -/
theorem gpt_last_partition_unbounded_witness :
    (([SrcPart.mk 1 100 (some 40) "8300", SrcPart.mk 3 60 (some 10) "8300",
       SrcPart.mk 2 50 none "8200"] : List SrcPart) ≠ [] ∧
     (([SrcPart.mk 1 100 (some 40) "8300", SrcPart.mk 3 60 (some 10) "8300",
       SrcPart.mk 2 50 none "8200"] : List SrcPart).map SrcPart.num).Nodup) ∧
    ((transferGpt [SrcPart.mk 1 100 (some 40) "8300", SrcPart.mk 3 60 (some 10) "8300",
        SrcPart.mk 2 50 none "8200"] 100 8 30).2.map PlanEntry.num
      = [1, 3, 2] ∧
     ∀ (i : Nat) (hi : i < (transferGpt [SrcPart.mk 1 100 (some 40) "8300",
          SrcPart.mk 3 60 (some 10) "8300", SrcPart.mk 2 50 none "8200"] 100 8 30).2.length),
       (((transferGpt [SrcPart.mk 1 100 (some 40) "8300", SrcPart.mk 3 60 (some 10) "8300",
            SrcPart.mk 2 50 none "8200"] 100 8 30).2.get ⟨i, hi⟩).unbounded
          = decide (i = 2))) :=
  ⟨⟨by decide, by decide⟩, by
    have h := gpt_last_partition_unbounded
      [SrcPart.mk 1 100 (some 40) "8300", SrcPart.mk 3 60 (some 10) "8300",
       SrcPart.mk 2 50 none "8200"] 100 8 30 (by decide) (by decide)
    exact ⟨h.1, fun i hi => (h.2 i hi).1⟩⟩

/-- C3: every planned GPT partition size is an exact integer multiple of the
target's partition alignment; the rounding helpers used by the engine round
sizes up (`ceil`) and shrinkable slack down (`floor`), so rounding always
leaves at least the unrounded amount of space in a shrunk partition. -/
theorem gpt_plan_alignment
    (parts : List SrcPart) (emptySpace alignment : Nat) (difference : Int)
    (ha : 0 < alignment) :
    (∀ e ∈ (transferGpt parts emptySpace alignment difference).2,
       (alignment : Int) ∣ e.computedSize) ∧
    (∀ x : Int, x ≤ ceilAlign alignment x) ∧
    (∀ x : Int, floorAlign alignment x ≤ x) := by
  refine ⟨?_, le_ceilAlign ha, floorAlign_le ha⟩
  intro e he
  obtain ⟨p, _, d', _, _, h3⟩ := gptLoop_mem _ _ _ _ e he
  rw [h3]
  exact dvd_gptStepSize alignment p d'

/-- Witness for C3 at a concrete layout and alignment 2048. -/
theorem gpt_plan_alignment_witness :
    0 < 2048 ∧
    ((∀ e ∈ (transferGpt [SrcPart.mk 1 10000 (some 4000) "8300"] 500 2048 3000).2,
        (2048 : Int) ∣ e.computedSize) ∧
     (∀ x : Int, x ≤ ceilAlign 2048 x) ∧
     (∀ x : Int, floorAlign 2048 x ≤ x)) :=
  ⟨by decide, gpt_plan_alignment [SrcPart.mk 1 10000 (some 4000) "8300"] 500 2048 3000
    (by decide)⟩

/-- C6: before any partition is processed, `_transfer_gpt` reduces the size
deficit `difference` by exactly `(source empty trailing space - 34)` sectors:
the shrink loop runs on `difference - emptySpace + 34`, and the result depends
on `difference` and `emptySpace` only through that combination. -/
theorem gpt_empty_space_margin (parts : List SrcPart) (alignment : Nat) :
    (∀ (emptySpace : Nat) (difference : Int),
       transferGpt parts emptySpace alignment difference
         = gptLoop alignment (((parts.getLast?).map SrcPart.num).getD 0) parts.reverse
             (difference - (emptySpace : Int) + 34)) ∧
    (∀ (es₁ es₂ : Nat) (d₁ d₂ : Int), d₁ - (es₁ : Int) = d₂ - (es₂ : Int) →
       transferGpt parts es₁ alignment d₁ = transferGpt parts es₂ alignment d₂) := by
  have hmain : ∀ (emptySpace : Nat) (difference : Int),
      transferGpt parts emptySpace alignment difference
        = gptLoop alignment (((parts.getLast?).map SrcPart.num).getD 0) parts.reverse
            (difference - (emptySpace : Int) + 34) := by
    intro es d
    have h : d - ((es : Int) - 34) = d - (es : Int) + 34 := by ring
    unfold transferGpt
    rw [h]
  refine ⟨hmain, ?_⟩
  intro es₁ es₂ d₁ d₂ h
  rw [hmain es₁ d₁, hmain es₂ d₂]
  congr 1
  omega

/-- Witness for C6: two (empty space, difference) pairs with the same combined
deficit yield the same plan. -/
theorem gpt_empty_space_margin_witness :
    ((100 : Int) - (40 : Nat) = (70 : Int) - (10 : Nat)) ∧
    transferGpt [SrcPart.mk 1 100 (some 40) "8300"] 40 8 100
      = transferGpt [SrcPart.mk 1 100 (some 40) "8300"] 10 8 70 :=
  ⟨by decide,
   (gpt_empty_space_margin [SrcPart.mk 1 100 (some 40) "8300"] 8).2 40 10 100 70 (by decide)⟩

/-! ## Validity checker (`DeviceCopier.partitions_valid`, device.py lines 1272-1319)

The checker compares the source and target partition id lists, then checks
each partition pairwise: filesystem types must match, and the source's used
sectors must fit in the target partition.  A `DeviceError` raised by the
usage/size queries is non-fatal iff its text contains `"mount"` or
`"swapspace"` (the partition is unmountable by nature, e.g. swap); any other
`DeviceError` is re-raised. -/

/-- Python's `pat in s` substring containment, used on `str(ex)` of a caught
`DeviceError`. -/
def strContains (s pat : String) : Bool := decide (List.IsInfix pat.data s.data)

/-- Errors surfaced by `partitions_valid`: a `CopyError` raised by the check
itself, or a re-raised `DeviceError` (the `raise ex` branch). -/
inductive VErr
  | copy (msg : String)
  | device (msg : String)
deriving Repr, DecidableEq

/-- Per-partition query results consumed by `partitions_valid`:
`get_partition_file_system` on source and target (`none` models an
unrecognized filesystem), `get_partition_used` on the source and
`get_partition_size` on the target (`Except.error msg` models a raised
`DeviceError` whose `str` is `msg`). -/
structure PartQuery where
  srcFs : Option String
  tgtFs : Option String
  srcUsed : Except String Nat
  tgtSize : Except String Nat

/-- The body of the `for i in source_parts` loop (device.py lines 1295-1317).
Both queries of the comparison
`source.get_partition_used(i) > target.get_partition_size(i)` sit inside the
`try`, so a `DeviceError` from either is tested for `"mount"`/`"swapspace"`. -/
def checkPart (q : Nat → PartQuery) (i : Nat) : Except VErr Unit :=
  if (q i).srcFs ≠ (q i).tgtFs then
    .error (.copy ("File system type for partition " ++ toString i ++
      " does not match. Invalid."))
  else
    match (q i).srcUsed with
    | .ok u =>
      match (q i).tgtSize with
      | .ok s =>
        if s < u then
          .error (.copy ("Information on partition " ++ toString i ++
            " cannot fit on corresponding partition on target drive."))
        else .ok ()
      | .error msg =>
        if strContains msg "mount" || strContains msg "swapspace" then .ok ()
        else .error (.device msg)
    | .error msg =>
      if strContains msg "mount" || strContains msg "swapspace" then .ok ()
      else .error (.device msg)

/-- The `for i in source_parts` loop: the first failing partition's error
propagates; non-fatal usage failures continue to the next partition. -/
def checkAll (q : Nat → PartQuery) : List Nat → Except VErr Unit
  | [] => .ok ()
  | i :: rest =>
    match checkPart q i with
    | .ok () => checkAll q rest
    | .error e => .error e

/-- `DeviceCopier.partitions_valid` (device.py lines 1286-1319). -/
def partitionsValid (sourceParts : List Nat) (targetParts : Except String (List Nat))
    (q : Nat → PartQuery) : Except VErr Bool :=
  match targetParts with
  | .error _ => .error (.copy "Target partitions cannot be found. Invalid.")
  | .ok tps =>
    if sourceParts ≠ tps then
      .error (.copy "Partition count on two drives different. Invalid.")
    else
      match checkAll q sourceParts with
      | .ok () => .ok true
      | .error e => .error e

theorem checkPart_ok_iff (q : Nat → PartQuery) (i : Nat) :
    checkPart q i = .ok () ↔
      ((q i).srcFs = (q i).tgtFs ∧
       (match (q i).srcUsed, (q i).tgtSize with
        | .ok u, .ok s => u ≤ s
        | .error msg, _ =>
            strContains msg "mount" = true ∨ strContains msg "swapspace" = true
        | .ok _, .error msg =>
            strContains msg "mount" = true ∨ strContains msg "swapspace" = true)) := by
  unfold checkPart
  by_cases hfs : (q i).srcFs = (q i).tgtFs
  · simp only [hfs, ne_eq, not_true_eq_false, if_false]
    rcases hu : (q i).srcUsed with msg | u
    · simp only [hu]
      constructor
      · intro h
        refine ⟨trivial, ?_⟩
        by_cases hm : (strContains msg "mount" || strContains msg "swapspace") = true
        · simpa using hm
        · simp [hm] at h
      · rintro ⟨-, h⟩
        have : (strContains msg "mount" || strContains msg "swapspace") = true := by
          simpa using h
        simp [this]
    · rcases hs : (q i).tgtSize with msg | s
      · simp only [hu, hs]
        constructor
        · intro h
          refine ⟨trivial, ?_⟩
          by_cases hm : (strContains msg "mount" || strContains msg "swapspace") = true
          · simpa using hm
          · simp [hm] at h
        · rintro ⟨-, h⟩
          have : (strContains msg "mount" || strContains msg "swapspace") = true := by
            simpa using h
          simp [this]
      · simp only [hu, hs]
        constructor
        · intro h
          refine ⟨trivial, ?_⟩
          by_cases hlt : s < u
          · simp [hlt] at h
          · omega
        · rintro ⟨-, h⟩
          have : ¬ s < u := by omega
          simp [this]
  · simp only [hfs, ne_eq, not_false_eq_true, if_true]
    constructor
    · intro h
      cases h
    · rintro ⟨h, -⟩
      exact h.elim

theorem checkAll_ok_iff (q : Nat → PartQuery) (l : List Nat) :
    checkAll q l = .ok () ↔ ∀ i ∈ l, checkPart q i = .ok () := by
  induction l with
  | nil => simp [checkAll]
  | cons i rest ih =>
    unfold checkAll
    rcases h : checkPart q i with e | u
    · simp only [h]
      constructor
      · intro hc
        cases hc
      · intro hall
        have := hall i (List.mem_cons_self i rest)
        rw [h] at this
        cases this
    · cases u
      simp only [h, ih]
      constructor
      · intro hall j hj
        rcases List.mem_cons.mp hj with rfl | hj'
        · exact h
        · exact hall j hj'
      · intro hall j hj
        exact hall j (List.mem_cons_of_mem _ hj)

/-- C4: `partitions_valid` raises a `CopyError` whose message indicates a
partition count mismatch whenever the source and target partition id
sequences differ (in count or order); it returns `True` exactly when the
sequences agree and no partition fails its pairwise check, where a pairwise
check fails iff the filesystem types differ, or the used/size queries
succeed with source used sectors exceeding the target partition size, or a
query raises a `DeviceError` whose text does not indicate an unmountable
partition (no `"mount"`/`"swapspace"` in the message — those are non-fatal
and the loop continues). -/
theorem partitions_valid_spec (sourceParts : List Nat)
    (targetParts : Except String (List Nat)) (q : Nat → PartQuery) :
    (∀ tps, targetParts = .ok tps → sourceParts ≠ tps →
       partitionsValid sourceParts targetParts q
         = .error (.copy "Partition count on two drives different. Invalid.")) ∧
    (partitionsValid sourceParts targetParts q = .ok true ↔
       (targetParts = .ok sourceParts ∧
        ∀ i ∈ sourceParts,
          (q i).srcFs = (q i).tgtFs ∧
          (match (q i).srcUsed, (q i).tgtSize with
           | .ok u, .ok s => u ≤ s
           | .error msg, _ =>
               strContains msg "mount" = true ∨ strContains msg "swapspace" = true
           | .ok _, .error msg =>
               strContains msg "mount" = true ∨ strContains msg "swapspace" = true))) := by
  constructor
  · rintro tps rfl hneq
    unfold partitionsValid
    simp [hneq]
  · unfold partitionsValid
    rcases targetParts with msg | tps
    · constructor
      · intro h
        cases h
      · rintro ⟨h, -⟩
        cases h
    · by_cases heq : sourceParts = tps
      · subst heq
        simp only [ne_eq, not_true_eq_false, if_false]
        rcases hall : checkAll q sourceParts with e | u
        · constructor
          · intro h
            cases h
          · rintro ⟨-, hok⟩
            have : checkAll q sourceParts = .ok () := by
              rw [checkAll_ok_iff]
              intro i hi
              rw [checkPart_ok_iff]
              exact hok i hi
            rw [hall] at this
            cases this
        · cases u
          constructor
          · intro _
            refine ⟨trivial, ?_⟩
            intro i hi
            rw [← checkPart_ok_iff]
            exact (checkAll_ok_iff q sourceParts).mp hall i hi
          · intro _
            rfl
      · simp only [heq, ne_eq, not_false_eq_true, if_true]
        constructor
        · intro h
          cases h
        · rintro ⟨h, -⟩
          cases h
          exact absurd rfl heq

/-- Witness for C4: the spec scenario `source=[1,2,3]`, `target=[1,2]` raises
the partition-count-mismatch `CopyError`. -/
theorem partitions_valid_spec_witness :
    ([1, 2, 3] : List Nat) ≠ [1, 2] ∧
    partitionsValid [1, 2, 3] (.ok [1, 2])
        (fun _ => ⟨none, none, .ok 0, .ok 0⟩)
      = .error (.copy "Partition count on two drives different. Invalid.") :=
  ⟨by decide,
   (partitions_valid_spec [1, 2, 3] (.ok [1, 2]) (fun _ => ⟨none, none, .ok 0, .ok 0⟩)).1
     [1, 2] rfl (by decide)⟩

/-! ## Scoped mounts (`DeviceManager._get_general_info`, device.py lines 285-325,
and `DeviceManager.set_partition_file_system`, lines 605-639)

Both functions manipulate the mount state of a single partition.  We model the
partition's mount state as `Option String` (the mount point, or `none`), and
record the successful mount/unmount operations each function performs as a
trace.  External failures are inputs: `mountRes` is the outcome of
`mount_partition` (which can raise), `query` the outcome of the `df`/`grep`
pipeline, `fmtRes` the outcome of `mkswap`/`mkfs`. -/

/-- A successful mount-state operation on the partition under consideration. -/
inductive MOp
  | mount (pt : String)
  | unmount
deriving Repr, DecidableEq

/-- Replay a trace of mount operations on an initial mount state. -/
def applyOps (initial : Option String) : List MOp → Option String
  | [] => initial
  | .mount pt :: rest => applyOps (some pt) rest
  | .unmount :: rest => applyOps none rest

/-- The fixed scratch mount point (device.py line 30). -/
def MOUNT_POINT : String := "/mnt"

/-- `DeviceManager._get_general_info` (device.py lines 285-325): mount the
partition at `MOUNT_POINT` if it is not already mounted (setting
`mounted_here`), run the `df`-based query, and in a `finally` block unmount
iff `mounted_here`.  If `mount_partition` itself raises, `mounted_here` is
still `False` and the `finally` block does nothing.  Returns the query
outcome and the trace of performed mount operations. -/
def getGeneralInfo (initialMount : Option String) (mountRes : Except String Unit)
    (query : Except String (List String)) : Except String (List String) × List MOp :=
  match initialMount with
  | none =>
    -- `if self.mount_point(partition_num) is None:` — mount needed
    match mountRes with
    | .error e => (.error e, [])                    -- mount raised; finally: no unmount
    | .ok () => (query, [.mount MOUNT_POINT, .unmount])  -- finally: unmount (both outcomes)
  | some _ => (query, [])                           -- already mounted: left untouched

/-- `DeviceManager.set_partition_file_system` (device.py lines 605-639):
read the current mount point; unmount if mounted; run `mkswap`/`mkfs`; in a
`finally` block remount at the saved mount point iff one existed.  Returns
the format outcome and the trace of performed mount operations. -/
def setPartitionFileSystem (initialMount : Option String)
    (fmtRes : Except String Unit) : Except String Unit × List MOp :=
  match initialMount with
  | some pt => (fmtRes, [.unmount, .mount pt])  -- unmount, format, finally remount at pt
  | none => (fmtRes, [])

/-- C8: every internal mount is scoped.  The usage query mounts the partition
only when it was not already mounted and unmounts it on every exit path
exactly when it performed the mount; formatting unmounts first iff mounted
and remounts at the same point on success and failure alike; in all cases the
partition's final mount state equals its initial one, and a partition the
caller had mounted is never touched by the usage query. -/
theorem scoped_mounts (pt : String) (mountRes : Except String Unit)
    (query : Except String (List String)) (fmtRes : Except String Unit) :
    ((getGeneralInfo (some pt) mountRes query).2 = [] ∧
     applyOps (some pt) (getGeneralInfo (some pt) mountRes query).2 = some pt) ∧
    ((getGeneralInfo none (.ok ()) query).2 = [.mount MOUNT_POINT, .unmount] ∧
     applyOps none (getGeneralInfo none mountRes query).2 = none) ∧
    ((setPartitionFileSystem (some pt) fmtRes).2 = [.unmount, .mount pt] ∧
     applyOps (some pt) (setPartitionFileSystem (some pt) fmtRes).2 = some pt ∧
     (setPartitionFileSystem none fmtRes).2 = []) := by
  refine ⟨⟨rfl, rfl⟩, ⟨rfl, ?_⟩, rfl, rfl, rfl⟩
  rcases mountRes with e | u
  · rfl
  · rfl

/-! ## UUID-map caching and partition-table transfer
(`DeviceCopier.get_uuid_dict`, device.py lines 825-885, and
`DeviceCopier.transfer_partition_table`, lines 1212-1263) -/

/-- The mutable state of a `DeviceCopier` relevant here: the cached UUID
correspondence map `self.uuid_dict` (`none` = not yet computed). -/
structure CopierState where
  uuidDict : Option (List (String × String))
deriving Repr, DecidableEq

/-- `DeviceCopier.get_uuid_dict` (device.py lines 825-885).  The construction
of the map from `blkid` queries on both drives is abstracted as `fresh`, the
map those queries would produce now.  Returns the map handed to the caller,
the updated state, and the number of fresh builds performed (`0` when the
cache is hit). -/
def getUuidDict (st : CopierState) (fresh : List (String × String)) :
    List (String × String) × CopierState × Nat :=
  match st.uuidDict with
  | none => (fresh, ⟨some fresh⟩, 1)   -- build, cache in self.uuid_dict, return
  | some d => (d, st, 0)               -- `else: return self.uuid_dict`

/-- Errors of `transfer_partition_table`: the size-guard `CopyError`
("Target device smaller than source device and resize set to false.") or an
error propagated from a sub-step (table transfer, `partprobe`, formatting). -/
inductive XferErr
  | smallTarget
  | subError (msg : String)
deriving Repr, DecidableEq

/-- Externally visible table-modifying effects of the transfer. -/
inductive Effect
  | tableWrite    -- sgdisk/sfdisk/fdisk writes performed by _transfer_gpt/_transfer_msdos
  | partprobe
  | format
deriving Repr, DecidableEq

/-- `DeviceCopier.transfer_partition_table` (device.py lines 1212-1263).
The drive sizes and table type are query results (inputs); the table-writing
sub-procedures are abstracted as their effect trace plus outcome
(`gptRun`/`msdosRun`); `probeRes`/`fmtRes` are the `partprobe` and
`format_partitions` outcomes.  Returns the outcome, the trace of
table-modifying effects performed, and the updated copier state
(`self.uuid_dict = None` on the success path only, line 1263). -/
def transferPartitionTable (st : CopierState) (sourceSize targetSize : Nat)
    (sourceType : String) (resize : Bool)
    (gptRun msdosRun : List Effect × Option String)
    (probeRes fmtRes : Option String) :
    Option XferErr × List Effect × CopierState :=
  if targetSize < sourceSize ∧ resize = false then
    -- raise CopyError before any table-modifying command
    (some .smallTarget, [], st)
  else
    let sub := if sourceType = "gpt" then gptRun
               else if sourceType = "msdos" then msdosRun
               else ([], none)
    match sub.2 with
    | some e => (some (.subError e), sub.1, st)
    | none =>
      match probeRes with
      | some e => (some (.subError e), sub.1 ++ [.partprobe], st)
      | none =>
        match fmtRes with
        | some e => (some (.subError e), sub.1 ++ [.partprobe, .format], st)
        | none => (none, sub.1 ++ [.partprobe, .format], ⟨none⟩)

/-- C9: the UUID correspondence map is computed lazily and cached — a call
with an existing cache returns the cached map with zero fresh builds and an
unchanged state, a call with an empty cache builds and caches the fresh map —
and a successful partition-table transfer clears the cache, so the next
build returns the current fresh map (never a stale one). -/
theorem uuid_dict_cache (d fresh fresh2 : List (String × String))
    (st : CopierState) (sourceSize targetSize : Nat) (sourceType : String)
    (effs : List Effect) :
    getUuidDict ⟨some d⟩ fresh = (d, ⟨some d⟩, 0) ∧
    getUuidDict ⟨none⟩ fresh = (fresh, ⟨some fresh⟩, 1) ∧
    (transferPartitionTable st sourceSize targetSize sourceType true
        (effs, none) (effs, none) none none).2.2.uuidDict = none ∧
    getUuidDict (transferPartitionTable st sourceSize targetSize sourceType true
        (effs, none) (effs, none) none none).2.2 fresh2
      = (fresh2, ⟨some fresh2⟩, 1) := by
  refine ⟨rfl, rfl, ?_, ?_⟩ <;>
  · by_cases h1 : sourceType = "gpt"
    · simp [transferPartitionTable, getUuidDict, h1]
    · by_cases h2 : sourceType = "msdos"
      · simp [transferPartitionTable, getUuidDict, h1, h2]
      · simp [transferPartitionTable, getUuidDict, h1, h2]

/-- C10: when the target drive has strictly fewer sectors than the source and
`resize` is `False`, `transfer_partition_table` raises the `CopyError` before
issuing any table-modifying command — the effect trace is empty and the
copier state unchanged; when the target is at least as large, `resize=False`
never produces this error. -/
theorem transfer_size_guard (st : CopierState) (sourceSize targetSize : Nat)
    (sourceType : String) (gptRun msdosRun : List Effect × Option String)
    (probeRes fmtRes : Option String) :
    (targetSize < sourceSize →
       transferPartitionTable st sourceSize targetSize sourceType false
           gptRun msdosRun probeRes fmtRes
         = (some .smallTarget, [], st)) ∧
    (sourceSize ≤ targetSize →
       (transferPartitionTable st sourceSize targetSize sourceType false
           gptRun msdosRun probeRes fmtRes).1 ≠ some .smallTarget) := by
  constructor
  · intro h
    unfold transferPartitionTable
    simp [h]
  · intro h
    unfold transferPartitionTable
    have hg : ¬ (targetSize < sourceSize ∧ false = false) := by
      rintro ⟨hc, -⟩
      omega
    rw [if_neg hg]
    by_cases h1 : sourceType = "gpt" <;> by_cases h2 : sourceType = "msdos" <;>
      simp only [h1, h2, if_true, if_false, ite_true, ite_false] <;>
      rcases gptRun with ⟨ge, gr⟩ <;> rcases msdosRun with ⟨me, mr⟩ <;>
      rcases gr with _ | e1 <;> rcases mr with _ | e2 <;>
      rcases probeRes with _ | e3 <;> rcases fmtRes with _ | e4 <;> simp

/-- Witness for C10: a 100-sector source and 50-sector target with
`resize=False` fail atomically; a 100-sector target does not hit the guard. -/
theorem transfer_size_guard_witness :
    (50 < 100 ∧
     transferPartitionTable ⟨none⟩ 100 50 "gpt" false ([Effect.tableWrite], none)
         ([], none) none none
       = (some .smallTarget, [], ⟨none⟩)) ∧
    (100 ≤ 100 ∧
     (transferPartitionTable ⟨none⟩ 100 100 "gpt" false ([Effect.tableWrite], none)
         ([], none) none none).1 ≠ some .smallTarget) :=
  ⟨⟨by decide,
    (transfer_size_guard ⟨none⟩ 100 50 "gpt" ([Effect.tableWrite], none) ([], none)
      none none).1 (by decide)⟩,
   ⟨by decide,
    (transfer_size_guard ⟨none⟩ 100 100 "gpt" ([Effect.tableWrite], none) ([], none)
      none none).2 (by decide)⟩⟩

/-! ## MBR resize (`DeviceCopier._transfer_msdos`, device.py lines 980-1078)

The source parses `sfdisk -d` output into a list of dicts
(`part`, `start`, `size`, `Id`/`type`, `bootable`), sorts it by start sector,
and runs the shrink loop of lines 1036-1066, mutating the dicts in place;
`current_extended_partition` aliases the dict of the most recent type-`5`
entry.  We model the sorted listing as a `List MbrPart`, the in-place mutable
list as a function `Nat → MbrPart` indexed by position, and the loop as a
step-indexed state machine (`mbrRun m` is the state before iteration `m`).
`margin` defaults to 5 in the source.  The float expression
`(size - used) * (1 - margin / 100)` is idealized to the exact rational value
`(size - used) * (100 - margin) / 100` (floored). -/

/-- One line of the parsed `sfdisk -d` listing. -/
structure MbrPart where
  part : Nat
  start : Int
  size : Int
  ptype : String
  bootable : Bool
deriving Repr, DecidableEq

/-- Placeholder for out-of-range indices (never reached by the loop). -/
def mbrDefault : MbrPart := ⟨0, 0, 0, "", false⟩

/-- The listing at position `k` of the sorted input. -/
def mbrInp (input : List MbrPart) (k : Nat) : MbrPart := input.getD k mbrDefault

/-- `space = math.floor((i["size"] - drive_used) * (1 - margin / 100))`,
in exact arithmetic. -/
def mbrSpace (margin : Int) (size usedVal : Int) : Int :=
  ((size - usedVal) * (100 - margin)).fdiv 100

/-- The shrink amount and updated `difference` for one non-extended listing
(device.py lines 1045-1059).  `srcUsed` models `get_partition_used` by
partition *number* (`none` = raised `DeviceError`, caught and logged: shrink
stays 0).  In the `space >= difference` branch the code leaves `difference`
unchanged. -/
def mbrShrinkDiff (srcUsed : Nat → Option Nat) (margin : Int) (e : MbrPart)
    (diff : Int) : Int × Int :=
  match srcUsed e.part with
  | none => (0, diff)
  | some used =>
    let space := mbrSpace margin e.size (used : Int)
    if 0 < space ∧ 0 < diff then
      if diff ≤ space then (diff, diff) else (space, diff - space)
    else (0, diff)

/-- The mutable state of the `for i in partition_listings` loop:
the current listing contents, `move_start_back_by`, `difference`, and the
index aliased by `current_extended_partition`. -/
structure MbrState where
  entry : Nat → MbrPart
  moveBack : Int
  diff : Int
  ext : Option Nat

/-- One iteration of the loop (device.py lines 1036-1065) on the listing at
position `j`: adjust its start by `move_start_back_by`; drop the tracked
extended partition when a primary (`part <= 4`) arrives; a type-`5` entry
becomes the tracked extended partition and is otherwise skipped
(`continue`); any other entry is shrunk per `mbrShrinkDiff`, and the shrink
is also subtracted from the tracked extended partition's size. -/
def mbrStep (srcUsed : Nat → Option Nat) (margin : Int) (st : MbrState) (j : Nat) :
    MbrState :=
  let e0 := st.entry j
  let e1 : MbrPart := { e0 with start := e0.start - st.moveBack }
  let ext1 := if st.ext.isSome && decide (e1.part ≤ 4) then none else st.ext
  if e1.ptype = "5" then
    { entry := fun k => if k = j then e1 else st.entry k,
      moveBack := st.moveBack, diff := st.diff, ext := some j }
  else
    let sd := mbrShrinkDiff srcUsed margin e1 st.diff
    let e2 : MbrPart := { e1 with size := e1.size - sd.1 }
    let f2 : Nat → MbrPart := fun k => if k = j then e2 else st.entry k
    let f3 : Nat → MbrPart :=
      match ext1 with
      | some k0 => fun k => if k = k0 then { f2 k0 with size := (f2 k0).size - sd.1 } else f2 k
      | none => f2
    { entry := f3, moveBack := st.moveBack + sd.1, diff := sd.2, ext := ext1 }

/-- The state of the loop before iteration `m` (the loop runs iterations
`0, 1, …, input.length - 1` in order). -/
def mbrRun (srcUsed : Nat → Option Nat) (margin : Int) (input : List MbrPart)
    (d0 : Int) : Nat → MbrState
  | 0 => { entry := fun k => mbrInp input k, moveBack := 0, diff := d0, ext := none }
  | m + 1 => mbrStep srcUsed margin (mbrRun srcUsed margin input d0 m) m

/-- The adjusted listing produced by the loop of `_transfer_msdos` for a
sorted input listing (before the final re-sort by partition number, which
only re-orders the lines of the emitted `sfdisk` script). -/
def msdosAdjust (srcUsed : Nat → Option Nat) (margin : Int) (input : List MbrPart)
    (d0 : Int) : List MbrPart :=
  (List.range input.length).map (mbrRun srcUsed margin input d0 input.length).entry

/-- The shrink applied at iteration `m` (0 for extended partitions, which are
skipped by `continue` before the shrink computation). -/
def shrinkAt (srcUsed : Nat → Option Nat) (margin : Int) (input : List MbrPart)
    (d0 : Int) (m : Nat) : Int :=
  let st := mbrRun srcUsed margin input d0 m
  let e0 := st.entry m
  if e0.ptype = "5" then 0
  else (mbrShrinkDiff srcUsed margin { e0 with start := e0.start - st.moveBack } st.diff).1

/-- Total shrink applied in iterations `0, …, m-1` — the value of
`move_start_back_by` before iteration `m`. -/
def shrinkSum (srcUsed : Nat → Option Nat) (margin : Int) (input : List MbrPart)
    (d0 : Int) (m : Nat) : Int :=
  ((List.range m).map (shrinkAt srcUsed margin input d0)).sum

/-- The index of the tracked extended partition before iteration `m`
(a pure recurrence over the input, matching `current_extended_partition`). -/
def extSeq (input : List MbrPart) : Nat → Option Nat
  | 0 => none
  | m + 1 =>
    if (mbrInp input m).ptype = "5" then some m
    else if (mbrInp input m).part ≤ 4 then none
    else extSeq input m

/-- The extended partition (if any) from whose size iteration `m`'s shrink is
subtracted: none for type-`5` entries (skipped) and for primaries
(`part <= 4`, which drop the tracked extended partition first). -/
def targetOf (input : List MbrPart) (m : Nat) : Option Nat :=
  if (mbrInp input m).ptype = "5" then none
  else if (mbrInp input m).part ≤ 4 then none
  else extSeq input m

/-- Total size subtracted from the extended partition at index `k0` during
iterations `0, …, m-1`. -/
def extSub (srcUsed : Nat → Option Nat) (margin : Int) (input : List MbrPart)
    (d0 : Int) (k0 m : Nat) : Int :=
  ((List.range m).map (fun t =>
    if targetOf input t = some k0 then shrinkAt srcUsed margin input d0 t else 0)).sum

/-! ### Basic lemmas about the extended-partition tracking -/

theorem extSeq_lt (input : List MbrPart) :
    ∀ m j, extSeq input m = some j → j < m := by
  intro m
  induction m with
  | zero => intro j h; cases h
  | succ m ih =>
    intro j h
    unfold extSeq at h
    split at h
    · cases h
      omega
    · split at h
      · cases h
      · have := ih j h
        omega

theorem extSeq_type5 (input : List MbrPart) :
    ∀ m j, extSeq input m = some j → (mbrInp input j).ptype = "5" := by
  intro m
  induction m with
  | zero => intro j h; cases h
  | succ m ih =>
    intro j h
    unfold extSeq at h
    split at h
    · rename_i hty
      cases h
      exact hty
    · split at h
      · cases h
      · exact ih j h

/-- Full characterization: the tracked extended partition before iteration
`m` is `j` iff `j` is a type-`5` entry before `m` and every entry strictly
between `j` and `m` is a logical partition (`part > 4`) that is not itself
type `5`. -/
theorem extSeq_some_iff (input : List MbrPart) (m j : Nat) :
    extSeq input m = some j ↔
      (j < m ∧ (mbrInp input j).ptype = "5" ∧
       ∀ s, j < s → s < m →
         4 < (mbrInp input s).part ∧ (mbrInp input s).ptype ≠ "5") := by
  induction m with
  | zero =>
    constructor
    · intro h
      cases h
    · rintro ⟨h, -, -⟩
      omega
  | succ m ih =>
    unfold extSeq
    by_cases hty : (mbrInp input m).ptype = "5"
    · simp only [hty, if_true]
      constructor
      · intro h
        cases h
        refine ⟨by omega, hty, ?_⟩
        intro s h1 h2
        omega
      · rintro ⟨h1, h2, h3⟩
        by_cases hjm : j = m
        · simp [hjm]
        · have hs := h3 m (by omega) (by omega)
          exact absurd hty hs.2
    · simp only [hty, if_false]
      by_cases hp : (mbrInp input m).part ≤ 4
      · simp only [hp, if_true]
        constructor
        · intro h
          cases h
        · rintro ⟨h1, h2, h3⟩
          by_cases hjm : j = m
          · subst hjm
            exact absurd h2 hty
          · have hs := h3 m (by omega) (by omega)
            omega
      · simp only [hp, if_false]
        rw [ih]
        constructor
        · rintro ⟨h1, h2, h3⟩
          refine ⟨by omega, h2, ?_⟩
          intro s hs1 hs2
          by_cases hsm : s = m
          · subst hsm
            exact ⟨by omega, hty⟩
          · exact h3 s hs1 (by omega)
        · rintro ⟨h1, h2, h3⟩
          by_cases hjm : j = m
          · subst hjm
            exact absurd h2 hty
          · exact ⟨by omega, h2, fun s hs1 hs2 => h3 s hs1 (by omega)⟩

theorem targetOf_lt (input : List MbrPart) (m j : Nat)
    (h : targetOf input m = some j) : j < m := by
  unfold targetOf at h
  split at h
  · cases h
  · split at h
    · cases h
    · exact extSeq_lt input m j h

theorem extSub_succ (srcUsed : Nat → Option Nat) (margin : Int)
    (input : List MbrPart) (d0 : Int) (k0 m : Nat) :
    extSub srcUsed margin input d0 k0 (m + 1)
      = extSub srcUsed margin input d0 k0 m
        + (if targetOf input m = some k0
           then shrinkAt srcUsed margin input d0 m else 0) := by
  unfold extSub
  rw [List.range_succ, List.map_append, List.sum_append]
  simp

theorem shrinkSum_succ (srcUsed : Nat → Option Nat) (margin : Int)
    (input : List MbrPart) (d0 : Int) (m : Nat) :
    shrinkSum srcUsed margin input d0 (m + 1)
      = shrinkSum srcUsed margin input d0 m + shrinkAt srcUsed margin input d0 m := by
  unfold shrinkSum
  rw [List.range_succ, List.map_append, List.sum_append]
  simp

/-- No subtraction ever targets an index at or beyond the current iteration,
so an extended partition opened at `j` has received nothing by `j + 1`. -/
theorem extSub_eq_zero_of_le (srcUsed : Nat → Option Nat) (margin : Int)
    (input : List MbrPart) (d0 : Int) (k0 m : Nat) (h : m ≤ k0 + 1) :
    extSub srcUsed margin input d0 k0 m = 0 := by
  induction m with
  | zero => rfl
  | succ m ih =>
    rw [extSub_succ]
    have h1 : extSub srcUsed margin input d0 k0 m = 0 := ih (by omega)
    have h2 : ¬ targetOf input m = some k0 := by
      intro hc
      have := targetOf_lt input m k0 hc
      omega
    simp [h1, h2]

/-! ### Branch characterizations of one loop iteration -/

theorem mbrStep_type5 (srcUsed : Nat → Option Nat) (margin : Int) (st : MbrState) (j : Nat)
    (hty : (st.entry j).ptype = "5") :
    mbrStep srcUsed margin st j
      = { entry := fun k => if k = j
            then { st.entry j with start := (st.entry j).start - st.moveBack }
            else st.entry k,
          moveBack := st.moveBack, diff := st.diff, ext := some j } := by
  unfold mbrStep
  simp only [hty, if_true]

theorem mbrStep_notype5 (srcUsed : Nat → Option Nat) (margin : Int) (st : MbrState) (j : Nat)
    (hty : ¬ (st.entry j).ptype = "5") :
    mbrStep srcUsed margin st j
      = (let e1 : MbrPart := { st.entry j with start := (st.entry j).start - st.moveBack }
         let ext1 := if st.ext.isSome && decide ((st.entry j).part ≤ 4) then none else st.ext
         let sd := mbrShrinkDiff srcUsed margin e1 st.diff
         let e2 : MbrPart := { e1 with size := e1.size - sd.1 }
         let f2 : Nat → MbrPart := fun k => if k = j then e2 else st.entry k
         { entry := match ext1 with
             | some k0 => fun k =>
                 if k = k0 then { f2 k0 with size := (f2 k0).size - sd.1 } else f2 k
             | none => f2,
           moveBack := st.moveBack + sd.1, diff := sd.2,
           ext := ext1 } : MbrState) := by
  unfold mbrStep
  simp only [hty, if_false]

/-! ### The loop invariant

Before iteration `m`: positions `≥ m` are untouched; `move_start_back_by`
equals the total shrink so far; the tracked extended partition is `extSeq m`;
a processed non-extended listing has its start moved back by the shrink of
its predecessors and its size reduced by its own shrink; a processed extended
listing additionally carries the subtractions it has received so far. -/
theorem mbrRun_spec (srcUsed : Nat → Option Nat) (margin : Int) (input : List MbrPart)
    (d0 : Int) :
    ∀ m : Nat,
    (∀ k, m ≤ k → (mbrRun srcUsed margin input d0 m).entry k = mbrInp input k) ∧
    ((mbrRun srcUsed margin input d0 m).moveBack = shrinkSum srcUsed margin input d0 m) ∧
    ((mbrRun srcUsed margin input d0 m).ext = extSeq input m) ∧
    (∀ k, k < m → ¬ (mbrInp input k).ptype = "5" →
       (mbrRun srcUsed margin input d0 m).entry k
         = ⟨(mbrInp input k).part,
            (mbrInp input k).start - shrinkSum srcUsed margin input d0 k,
            (mbrInp input k).size - shrinkAt srcUsed margin input d0 k,
            (mbrInp input k).ptype, (mbrInp input k).bootable⟩) ∧
    (∀ k, k < m → (mbrInp input k).ptype = "5" →
       (mbrRun srcUsed margin input d0 m).entry k
         = ⟨(mbrInp input k).part,
            (mbrInp input k).start - shrinkSum srcUsed margin input d0 k,
            (mbrInp input k).size - extSub srcUsed margin input d0 k m,
            (mbrInp input k).ptype, (mbrInp input k).bootable⟩) := by
  intro m
  induction m with
  | zero =>
    refine ⟨fun k _ => rfl, ?_, rfl, ?_, ?_⟩
    · simp [mbrRun, shrinkSum]
    · intro k hk
      exact absurd hk (by omega)
    · intro k hk
      exact absurd hk (by omega)
  | succ m ih =>
    obtain ⟨ihA, ihB, ihC, ihD, ihE⟩ := ih
    have hE0 : (mbrRun srcUsed margin input d0 m).entry m = mbrInp input m := ihA m le_rfl
    have hrun : mbrRun srcUsed margin input d0 (m + 1)
        = mbrStep srcUsed margin (mbrRun srcUsed margin input d0 m) m := rfl
    by_cases hty : (mbrInp input m).ptype = "5"
    · -- extended partition: tracked and skipped
      have hShA : shrinkAt srcUsed margin input d0 m = 0 := by
        simp only [shrinkAt, hE0, hty, if_true]
      have hstep : mbrRun srcUsed margin input d0 (m + 1)
          = { entry := fun k => if k = m
                then ⟨(mbrInp input m).part,
                      (mbrInp input m).start - (mbrRun srcUsed margin input d0 m).moveBack,
                      (mbrInp input m).size, (mbrInp input m).ptype,
                      (mbrInp input m).bootable⟩
                else (mbrRun srcUsed margin input d0 m).entry k,
              moveBack := (mbrRun srcUsed margin input d0 m).moveBack,
              diff := (mbrRun srcUsed margin input d0 m).diff,
              ext := some m } := by
        rw [hrun, mbrStep_type5 srcUsed margin _ m (by rw [hE0]; exact hty), hE0]
      refine ⟨?_, ?_, ?_, ?_, ?_⟩
      · intro k hk
        rw [hstep]
        simp only
        rw [if_neg (by omega)]
        exact ihA k (by omega)
      · rw [hstep]
        simp only
        rw [ihB, shrinkSum_succ, hShA, add_zero]
      · rw [hstep]
        simp only
        unfold extSeq
        rw [if_pos hty]
      · intro k hk hkty
        have hkm : k ≠ m := fun hc => hkty (hc ▸ hty)
        rw [hstep]
        simp only
        rw [if_neg hkm]
        exact ihD k (by omega) hkty
      · intro k hk hkty
        by_cases hkm : k = m
        · subst hkm
          rw [hstep]
          simp only
          rw [if_pos trivial,
            extSub_eq_zero_of_le srcUsed margin input d0 k (k + 1) le_rfl, sub_zero, ihB]
        · rw [hstep]
          simp only
          rw [if_neg hkm]
          have htgt : ¬ targetOf input m = some k := by
            unfold targetOf
            rw [if_pos hty]
            simp
          rw [ihE k (by omega) hkty, extSub_succ, if_neg htgt, add_zero]
    · -- ordinary listing: shrink it, and subtract from the tracked extended
      -- partition if one is open
      have hShA : shrinkAt srcUsed margin input d0 m
          = (mbrShrinkDiff srcUsed margin
              ⟨(mbrInp input m).part,
               (mbrInp input m).start - (mbrRun srcUsed margin input d0 m).moveBack,
               (mbrInp input m).size, (mbrInp input m).ptype, (mbrInp input m).bootable⟩
              (mbrRun srcUsed margin input d0 m).diff).1 := by
        simp only [shrinkAt, hE0, hty, if_false]
      have hstep0 := mbrStep_notype5 srcUsed margin
        (mbrRun srcUsed margin input d0 m) m (by rw [hE0]; exact hty)
      rw [hE0] at hstep0
      rw [← hrun] at hstep0
      simp only at hstep0
      -- resolve the tracked-extended-partition update
      by_cases hp : (mbrInp input m).part ≤ 4
      · -- a primary listing closes any tracked extended partition
        have hext1 : (if (mbrRun srcUsed margin input d0 m).ext.isSome
              && decide ((mbrInp input m).part ≤ 4)
            then none else (mbrRun srcUsed margin input d0 m).ext)
            = (none : Option Nat) := by
          rcases hcase : (mbrRun srcUsed margin input d0 m).ext with _ | k0 <;>
            simp [hcase, hp]
        rw [hext1] at hstep0
        simp only at hstep0
        refine ⟨?_, ?_, ?_, ?_, ?_⟩
        · intro k hk
          rw [hstep0]
          simp only
          rw [if_neg (by omega)]
          exact ihA k (by omega)
        · rw [hstep0]
          simp only
          rw [shrinkSum_succ, hShA, ihB]
        · rw [hstep0]
          simp only
          unfold extSeq
          rw [if_neg hty, if_pos hp]
        · intro k hk hkty
          by_cases hkm : k = m
          · subst hkm
            rw [hstep0]
            simp only
            rw [if_pos trivial, hShA, ihB]
          · rw [hstep0]
            simp only
            rw [if_neg hkm]
            exact ihD k (by omega) hkty
        · intro k hk hkty
          have hkm : k ≠ m := fun hc => hty (hc ▸ hkty)
          rw [hstep0]
          simp only
          rw [if_neg hkm]
          have htgt : ¬ targetOf input m = some k := by
            unfold targetOf
            rw [if_neg hty, if_pos hp]
            simp
          rw [ihE k (by omega) hkty, extSub_succ, if_neg htgt, add_zero]
      · have hext1 : (if (mbrRun srcUsed margin input d0 m).ext.isSome
              && decide ((mbrInp input m).part ≤ 4)
            then none else (mbrRun srcUsed margin input d0 m).ext)
            = extSeq input m := by
          rcases hcase : (mbrRun srcUsed margin input d0 m).ext with _ | k0 <;>
            rw [← ihC, hcase] <;> simp [hp]
        rw [hext1] at hstep0
        rcases hex : extSeq input m with _ | k0
        · -- no tracked extended partition
          rw [hex] at hstep0
          simp only at hstep0
          refine ⟨?_, ?_, ?_, ?_, ?_⟩
          · intro k hk
            rw [hstep0]
            simp only
            rw [if_neg (by omega)]
            exact ihA k (by omega)
          · rw [hstep0]
            simp only
            rw [shrinkSum_succ, hShA, ihB]
          · rw [hstep0]
            simp only
            unfold extSeq
            rw [if_neg hty, if_neg hp, hex]
          · intro k hk hkty
            by_cases hkm : k = m
            · subst hkm
              rw [hstep0]
              simp only
              rw [if_pos trivial, hShA, ihB]
            · rw [hstep0]
              simp only
              rw [if_neg hkm]
              exact ihD k (by omega) hkty
          · intro k hk hkty
            have hkm : k ≠ m := fun hc => hty (hc ▸ hkty)
            rw [hstep0]
            simp only
            rw [if_neg hkm]
            have htgt : ¬ targetOf input m = some k := by
              unfold targetOf
              rw [if_neg hty, if_neg hp, hex]
              simp
            rw [ihE k (by omega) hkty, extSub_succ, if_neg htgt, add_zero]
        · -- the shrink is also subtracted from the tracked extended partition k0
          rw [hex] at hstep0
          have hk0lt : k0 < m := extSeq_lt input m k0 hex
          have hk0ty : (mbrInp input k0).ptype = "5" := extSeq_type5 input m k0 hex
          have hk0m : ¬ (k0 = m) := by omega
          simp only [if_neg hk0m] at hstep0
          have htgtm : targetOf input m = some k0 := by
            unfold targetOf
            rw [if_neg hty, if_neg hp, hex]
          refine ⟨?_, ?_, ?_, ?_, ?_⟩
          · intro k hk
            rw [hstep0]
            simp only
            rw [if_neg (by omega), if_neg (by omega)]
            exact ihA k (by omega)
          · rw [hstep0]
            simp only
            rw [shrinkSum_succ, hShA, ihB]
          · rw [hstep0]
            simp only
            unfold extSeq
            rw [if_neg hty, if_neg hp, hex]
          · intro k hk hkty
            by_cases hkm : k = m
            · subst hkm
              rw [hstep0]
              simp only
              rw [if_neg (by omega), if_pos trivial, hShA, ihB]
            · have hkk0 : k ≠ k0 := fun hc => hkty (hc ▸ hk0ty)
              rw [hstep0]
              simp only
              rw [if_neg hkk0, if_neg hkm]
              exact ihD k (by omega) hkty
          · intro k hk hkty
            have hkm : k ≠ m := fun hc => hty (hc ▸ hkty)
            by_cases hkk0 : k = k0
            · subst hkk0
              rw [hstep0]
              simp only
              rw [if_pos trivial, ihE k hk0lt hkty]
              simp only
              rw [extSub_succ, htgtm, if_pos rfl, hShA, ihB]
              simp only [MbrPart.mk.injEq]
              refine ⟨trivial, trivial, ?_, trivial, trivial⟩
              ring
            · rw [hstep0]
              simp only
              rw [if_neg hkk0, if_neg hkm]
              have htgt : ¬ targetOf input m = some k := by
                rw [htgtm]
                simp [Ne.symm hkk0]
              rw [ihE k (by omega) hkty, extSub_succ, if_neg htgt, add_zero]

/-! ### From subtraction targets to a scope interval -/

/-- If the entries strictly between an extended listing `j` and `j + 1 + L`
are exactly its contained logical partitions (all `part > 4`, none type `5`),
and position `j + 1 + L` is the end of the listing or a scope-closing entry,
then iteration `t` subtracts from `j` exactly when `t` lies in that
interval. -/
theorem targetOf_interval (input : List MbrPart) (j L n : Nat)
    (hn : j + 1 + L ≤ n)
    (hj : (mbrInp input j).ptype = "5")
    (hscope : ∀ t, j < t → t < j + 1 + L →
       4 < (mbrInp input t).part ∧ ¬ (mbrInp input t).ptype = "5")
    (hbound : j + 1 + L = n ∨ (mbrInp input (j + 1 + L)).part ≤ 4 ∨
       (mbrInp input (j + 1 + L)).ptype = "5") :
    ∀ t, t < n → (targetOf input t = some j ↔ (j + 1 ≤ t ∧ t < j + 1 + L)) := by
  intro t ht
  constructor
  · intro h
    have hfacts : extSeq input t = some j ∧ ¬ (mbrInp input t).ptype = "5" ∧
        4 < (mbrInp input t).part := by
      unfold targetOf at h
      split at h
      · cases h
      · split at h
        · cases h
        · rename_i h5 h4
          exact ⟨h, h5, by omega⟩
    obtain ⟨hext, ht5, ht4⟩ := hfacts
    obtain ⟨hjt, -, hpred⟩ := (extSeq_some_iff input t j).mp hext
    refine ⟨by omega, ?_⟩
    by_contra hge
    push_neg at hge
    rcases hbound with hb | hb
    · omega
    · by_cases hteq : t = j + 1 + L
      · subst hteq
        rcases hb with hb | hb
        · omega
        · exact ht5 hb
      · have hc := hpred (j + 1 + L) (by omega) (by omega)
        rcases hb with hb | hb
        · omega
        · exact hc.2 hb
  · rintro ⟨h1, h2⟩
    have hpred := hscope t (by omega) h2
    unfold targetOf
    rw [if_neg hpred.2, if_neg (show ¬ (mbrInp input t).part ≤ 4 by omega)]
    rw [extSeq_some_iff]
    exact ⟨by omega, hj, fun s hs1 hs2 => hscope s hs1 (by omega)⟩

/-- Under the interval characterization of the subtraction targets, the total
subtracted from the extended listing `j` over the whole run is the sum of the
shrinks of its contained logical partitions. -/
theorem extSub_interval (srcUsed : Nat → Option Nat) (margin : Int)
    (input : List MbrPart) (d0 : Int) (j L n : Nat) (hn : j + 1 + L ≤ n)
    (hiff : ∀ t, t < n → (targetOf input t = some j ↔ (j + 1 ≤ t ∧ t < j + 1 + L))) :
    extSub srcUsed margin input d0 j n
      = ((List.range L).map (fun t => shrinkAt srcUsed margin input d0 (j + 1 + t))).sum := by
  have hbase : ∀ L', L' ≤ L →
      extSub srcUsed margin input d0 j (j + 1 + L')
        = ((List.range L').map (fun t => shrinkAt srcUsed margin input d0 (j + 1 + t))).sum := by
    intro L'
    induction L' with
    | zero =>
      intro _
      rw [extSub_eq_zero_of_le srcUsed margin input d0 j (j + 1 + 0) (by omega)]
      simp
    | succ L' ihL =>
      intro hL
      have h1 : j + 1 + (L' + 1) = (j + 1 + L') + 1 := by omega
      rw [h1, extSub_succ]
      have hcond : targetOf input (j + 1 + L') = some j := by
        rw [hiff (j + 1 + L') (by omega)]
        omega
      rw [if_pos hcond, ihL (by omega), List.range_succ, List.map_append, List.sum_append]
      simp
  have hstep : ∀ n', j + 1 + L ≤ n' → n' ≤ n →
      extSub srcUsed margin input d0 j n'
        = ((List.range L).map (fun t => shrinkAt srcUsed margin input d0 (j + 1 + t))).sum := by
    intro n'
    induction n' with
    | zero =>
      intro h1 _
      exact absurd h1 (by omega)
    | succ n' ihn =>
      intro h1 h2
      by_cases hcase : j + 1 + L = n' + 1
      · rw [← hcase]
        exact hbase L le_rfl
      · rw [extSub_succ]
        have hcond : ¬ targetOf input n' = some j := by
          rw [hiff n' (by omega)]
          omega
        rw [if_neg hcond, add_zero]
        exact ihn (by omega) (by omega)
  exact hstep n hn le_rfl

/-! ### Shrink characterization and bounds -/

theorem shrinkAt_eq (srcUsed : Nat → Option Nat) (margin : Int) (input : List MbrPart)
    (d0 : Int) (k : Nat) :
    shrinkAt srcUsed margin input d0 k
      = if (mbrInp input k).ptype = "5" then 0
        else (mbrShrinkDiff srcUsed margin
            ⟨(mbrInp input k).part,
             (mbrInp input k).start - (mbrRun srcUsed margin input d0 k).moveBack,
             (mbrInp input k).size, (mbrInp input k).ptype, (mbrInp input k).bootable⟩
            (mbrRun srcUsed margin input d0 k).diff).1 := by
  have hE0 : (mbrRun srcUsed margin input d0 k).entry k = mbrInp input k :=
    (mbrRun_spec srcUsed margin input d0 k).1 k le_rfl
  simp only [shrinkAt, hE0]

/-- The shrink of a listing with a determinable usage is non-negative and
never exceeds its (non-negative part of) shrinkable space. -/
theorem mbrShrinkDiff_bounds (srcUsed : Nat → Option Nat) (margin : Int)
    (e : MbrPart) (diff : Int) (u : Nat) (hu : srcUsed e.part = some u) :
    0 ≤ (mbrShrinkDiff srcUsed margin e diff).1 ∧
    (mbrShrinkDiff srcUsed margin e diff).1 ≤ max (mbrSpace margin e.size (u : Int)) 0 := by
  unfold mbrShrinkDiff
  rw [hu]
  simp only
  split
  · rename_i hc
    split
    · rename_i hds
      constructor
      · omega
      · have := le_max_left (mbrSpace margin e.size (u : Int)) 0
        omega
    · constructor
      · omega
      · have := le_max_left (mbrSpace margin e.size (u : Int)) 0
        omega
  · constructor
    · omega
    · have := le_max_right (mbrSpace margin e.size (u : Int)) 0
      omega

/-- `100 * ⌊(s - u) * (100 - margin) / 100⌋ ≤ (s - u) * (100 - margin)`. -/
theorem mbrSpace_mul_le (margin s u : Int) :
    100 * mbrSpace margin s u ≤ (s - u) * (100 - margin) := by
  unfold mbrSpace
  have h := Int.fdiv_add_fmod ((s - u) * (100 - margin)) 100
  have hm : 0 ≤ ((s - u) * (100 - margin)).fmod 100 :=
    Int.fmod_nonneg' _ (by decide)
  omega

/-! ### Claim theorems for the MBR engine -/

/-- C5: in the MBR resize loop, (a) the output listing is the final state of
the in-place mutation, (b) every listing's start sector is moved back by the
cumulative shrink of its predecessors, (c) a non-extended listing's size
shrinks by exactly its own shrink, (d) an extended partition's (type `"5"`)
size is reduced by exactly the total shrink of the logical partitions
contained in it, and (e) consecutive listings keep their original gap, so
partitions stay packed with no new gaps. -/
theorem mbr_extended_tracking (srcUsed : Nat → Option Nat) (margin : Int)
    (input : List MbrPart) (d0 : Int) :
    (∀ k, k < input.length →
       (msdosAdjust srcUsed margin input d0).get? k
         = some ((mbrRun srcUsed margin input d0 input.length).entry k)) ∧
    (∀ k, k < input.length →
       ((mbrRun srcUsed margin input d0 input.length).entry k).start
         = (mbrInp input k).start - shrinkSum srcUsed margin input d0 k) ∧
    (∀ k, k < input.length → ¬ (mbrInp input k).ptype = "5" →
       ((mbrRun srcUsed margin input d0 input.length).entry k).size
         = (mbrInp input k).size - shrinkAt srcUsed margin input d0 k) ∧
    (∀ j L, j < input.length → j + 1 + L ≤ input.length →
       (mbrInp input j).ptype = "5" →
       (∀ t, j < t → t < j + 1 + L →
          4 < (mbrInp input t).part ∧ ¬ (mbrInp input t).ptype = "5") →
       (j + 1 + L = input.length ∨ (mbrInp input (j + 1 + L)).part ≤ 4 ∨
          (mbrInp input (j + 1 + L)).ptype = "5") →
       ((mbrRun srcUsed margin input d0 input.length).entry j).size
         = (mbrInp input j).size
           - ((List.range L).map
               (fun t => shrinkAt srcUsed margin input d0 (j + 1 + t))).sum) ∧
    (∀ k, k + 1 < input.length → ¬ (mbrInp input k).ptype = "5" →
       ((mbrRun srcUsed margin input d0 input.length).entry (k + 1)).start
           - (((mbrRun srcUsed margin input d0 input.length).entry k).start
              + ((mbrRun srcUsed margin input d0 input.length).entry k).size)
         = (mbrInp input (k + 1)).start
           - ((mbrInp input k).start + (mbrInp input k).size)) := by
  obtain ⟨-, -, -, hD, hE⟩ := mbrRun_spec srcUsed margin input d0 input.length
  have hstart : ∀ k, k < input.length →
      ((mbrRun srcUsed margin input d0 input.length).entry k).start
        = (mbrInp input k).start - shrinkSum srcUsed margin input d0 k := by
    intro k hk
    by_cases hty : (mbrInp input k).ptype = "5"
    · rw [hE k hk hty]
    · rw [hD k hk hty]
  have hsize : ∀ k, k < input.length → ¬ (mbrInp input k).ptype = "5" →
      ((mbrRun srcUsed margin input d0 input.length).entry k).size
        = (mbrInp input k).size - shrinkAt srcUsed margin input d0 k := by
    intro k hk hty
    rw [hD k hk hty]
  refine ⟨?_, hstart, hsize, ?_, ?_⟩
  · intro k hk
    unfold msdosAdjust
    rw [List.get?_map, List.get?_range hk]
    rfl
  · intro j L hj hn hty hscope hbound
    have hiff := targetOf_interval input j L input.length hn hty hscope hbound
    have hsub := extSub_interval srcUsed margin input d0 j L input.length hn hiff
    rw [hE j hj hty]
    simp only
    rw [hsub]
  · intro k hk hty
    rw [hstart (k + 1) (by omega), hstart k (by omega), hsize k (by omega) hty,
      shrinkSum_succ]
    ring

/-- Witness for C5 at the spec scenario: an extended partition (index 1,
size 60) containing two logical volumes whose shrinks are 11 and 9; its
final size is 60 - (11 + 9) = 40. -/
theorem mbr_extended_tracking_witness :
    ((mbrRun
        (fun p => if p = 1 then some 40 else if p = 5 then some 10
                  else if p = 6 then some 20 else none) 5
        [⟨1, 100, 50, "83", true⟩, ⟨2, 150, 60, "5", false⟩,
         ⟨5, 152, 28, "83", false⟩, ⟨6, 180, 30, "83", false⟩] 20
        ([⟨1, 100, 50, "83", true⟩, ⟨2, 150, 60, "5", false⟩,
          ⟨5, 152, 28, "83", false⟩,
          ⟨6, 180, 30, "83", false⟩] : List MbrPart).length).entry 1).size = 40 := by
  have h := (mbr_extended_tracking
      (fun p => if p = 1 then some 40 else if p = 5 then some 10
                else if p = 6 then some 20 else none) 5
      [⟨1, 100, 50, "83", true⟩, ⟨2, 150, 60, "5", false⟩,
       ⟨5, 152, 28, "83", false⟩, ⟨6, 180, 30, "83", false⟩] 20).2.2.2.1
    1 2 (by decide) (by decide) (by decide)
    (fun t h1 h2 => by interval_cases t <;> exact (by decide))
    (Or.inl (by decide))
  rw [h]
  decide

/-- C7: in the MBR resize, for a listing with determinable usage the shrink
is non-negative and never exceeds the shrinkable space
`⌊(size - used) * (100 - margin) / 100⌋` (clamped at 0), its final size is its
original size minus that shrink, and at least `margin`% (default `margin = 5`)
of the original slack `size - used` is preserved as spare capacity above the
used size: `100 * (finalSize - used) ≥ margin * (size - used)`. -/
theorem mbr_margin_spec (srcUsed : Nat → Option Nat) (margin : Int)
    (input : List MbrPart) (d0 : Int) (k : Nat) (u : Nat)
    (hk : k < input.length)
    (hty : ¬ (mbrInp input k).ptype = "5")
    (hu : srcUsed (mbrInp input k).part = some u)
    (hle : (u : Int) ≤ (mbrInp input k).size)
    (hm0 : 0 ≤ margin) (hm100 : margin ≤ 100) :
    0 ≤ shrinkAt srcUsed margin input d0 k ∧
    shrinkAt srcUsed margin input d0 k
      ≤ max (mbrSpace margin (mbrInp input k).size (u : Int)) 0 ∧
    ((mbrRun srcUsed margin input d0 input.length).entry k).size
      = (mbrInp input k).size - shrinkAt srcUsed margin input d0 k ∧
    100 * (((mbrRun srcUsed margin input d0 input.length).entry k).size - (u : Int))
      ≥ margin * ((mbrInp input k).size - (u : Int)) := by
  have hD := (mbrRun_spec srcUsed margin input d0 input.length).2.2.2.1
  have hsize : ((mbrRun srcUsed margin input d0 input.length).entry k).size
      = (mbrInp input k).size - shrinkAt srcUsed margin input d0 k := by
    rw [hD k hk hty]
  have hchar := shrinkAt_eq srcUsed margin input d0 k
  rw [if_neg hty] at hchar
  have hbounds := mbrShrinkDiff_bounds srcUsed margin
    ⟨(mbrInp input k).part,
     (mbrInp input k).start - (mbrRun srcUsed margin input d0 k).moveBack,
     (mbrInp input k).size, (mbrInp input k).ptype, (mbrInp input k).bootable⟩
    (mbrRun srcUsed margin input d0 k).diff u hu
  simp only at hbounds
  rw [← hchar] at hbounds
  refine ⟨hbounds.1, hbounds.2, hsize, ?_⟩
  rw [hsize]
  have hspace := mbrSpace_mul_le margin (mbrInp input k).size (u : Int)
  have hsplit : ((mbrInp input k).size - (u : Int)) * (100 - margin)
      = 100 * ((mbrInp input k).size - (u : Int))
        - margin * ((mbrInp input k).size - (u : Int)) := by ring
  rcases le_or_lt 0 (mbrSpace margin (mbrInp input k).size (u : Int)) with hsp | hsp
  · have h2 : shrinkAt srcUsed margin input d0 k
        ≤ mbrSpace margin (mbrInp input k).size (u : Int) := by
      have hb := hbounds.2
      rwa [max_eq_left hsp] at hb
    linarith
  · have h2 : shrinkAt srcUsed margin input d0 k = 0 := by
      have hb := hbounds.2
      rw [max_eq_right (le_of_lt hsp)] at hb
      have hb1 := hbounds.1
      omega
    rw [h2, sub_zero]
    have hnn : 0 ≤ (100 - margin) * ((mbrInp input k).size - (u : Int)) :=
      mul_nonneg (by omega) (by omega)
    have hexp : (100 - margin) * ((mbrInp input k).size - (u : Int))
        = 100 * ((mbrInp input k).size - (u : Int))
          - margin * ((mbrInp input k).size - (u : Int)) := by ring
    linarith

/-- Witness for C7: a 50-sector partition with 40 used shrinks by 3 out of a
shrinkable space of 9, keeping at least 5% of the slack free. -/
theorem mbr_margin_spec_witness :
    0 ≤ shrinkAt (fun p => if p = 1 then some 40 else none) 5
        [⟨1, 2048, 100, "83", false⟩] 3 0 ∧
    shrinkAt (fun p => if p = 1 then some 40 else none) 5
        [⟨1, 2048, 100, "83", false⟩] 3 0
      ≤ max (mbrSpace 5 (mbrInp [⟨1, 2048, 100, "83", false⟩] 0).size ((40 : Nat) : Int)) 0 ∧
    ((mbrRun (fun p => if p = 1 then some 40 else none) 5
        [⟨1, 2048, 100, "83", false⟩] 3
        ([⟨1, 2048, 100, "83", false⟩] : List MbrPart).length).entry 0).size
      = (mbrInp [⟨1, 2048, 100, "83", false⟩] 0).size
        - shrinkAt (fun p => if p = 1 then some 40 else none) 5
            [⟨1, 2048, 100, "83", false⟩] 3 0 ∧
    100 * (((mbrRun (fun p => if p = 1 then some 40 else none) 5
        [⟨1, 2048, 100, "83", false⟩] 3
        ([⟨1, 2048, 100, "83", false⟩] : List MbrPart).length).entry 0).size
          - ((40 : Nat) : Int))
      ≥ 5 * ((mbrInp [⟨1, 2048, 100, "83", false⟩] 0).size - ((40 : Nat) : Int)) :=
  mbr_margin_spec (fun p => if p = 1 then some 40 else none) 5
    [⟨1, 2048, 100, "83", false⟩] 3 0 40
    (by decide) (by decide) (by decide) (by decide) (by decide) (by decide)

end WereSync
